import Mathlib

/-!
Verification model for the libgroove public interface (`groove.h`).

The repository ships the C header only: `groove.h` declares the playlist,
player, event and replay-gain-scan API and documents its behaviour, while the
implementation lives outside the repository.  Every operation below is
therefore a shallow embedding modelled from the specification document (and
the header's own comments), as flagged in the doc comments.  Pointers are
modelled as `Option Nat` node identifiers, the node store as an association
list, machine floating point as `ℚ` (or `ℝ` for the analytic gain formula),
and the concurrent decode/output/seek activity as an explicit step relation.
-/

/-! ### Playlist: doubly linked list model -/

/-- Modelled from the spec: `GroovePlaylistItem` — `prev`/`next` links
(`Option Nat` node ids standing for the C pointers), the referenced
`GrooveFile` (by id, non-owning) and the per-item `gain` adjustment. -/
structure Node where
  prev : Option Nat
  file : Nat
  gain : Int
  next : Option Nat
deriving DecidableEq, Repr

/-- Modelled from the spec: the playlist part of `GroovePlayer` —
`playlist_head`/`playlist_tail` pointers, the node store (an association list
from node id to node, standing for the heap), the incrementally maintained
item count, and a fresh-id counter standing for allocation. -/
structure Playlist where
  nodes : List (Nat × Node)
  playlist_head : Option Nat
  playlist_tail : Option Nat
  count : Nat
  nextId : Nat
deriving DecidableEq, Repr

/-- Dereference a node id in the store (first entry wins, like a heap). -/
def findNode (nodes : List (Nat × Node)) (id : Nat) : Option Node :=
  match nodes with
  | [] => none
  | (k, nd) :: rest => if k = id then some nd else findNode rest id

/-- Overwrite the `next` field of the node with the given id. -/
def setNext : List (Nat × Node) → Nat → Option Nat → List (Nat × Node)
  | [], _, _ => []
  | (k, nd) :: rest, id, nx =>
    (k, if k = id then { nd with next := nx } else nd) :: setNext rest id nx

/-- Overwrite the `prev` field of the node with the given id. -/
def setPrev : List (Nat × Node) → Nat → Option Nat → List (Nat × Node)
  | [], _, _ => []
  | (k, nd) :: rest, id, pv =>
    (k, if k = id then { nd with prev := pv } else nd) :: setPrev rest id pv

/-- `linkNext nodes o nx` performs `o->next = nx` when `o` is non-null. -/
def linkNext (nodes : List (Nat × Node)) (o : Option Nat) (nx : Option Nat) :
    List (Nat × Node) :=
  match o with
  | none => nodes
  | some i => setNext nodes i nx

/-- `linkPrev nodes o pv` performs `o->prev = pv` when `o` is non-null. -/
def linkPrev (nodes : List (Nat × Node)) (o : Option Nat) (pv : Option Nat) :
    List (Nat × Node) :=
  match o with
  | none => nodes
  | some i => setPrev nodes i pv

/-- Free a node: drop its entry from the store. -/
def eraseNode : List (Nat × Node) → Nat → List (Nat × Node)
  | [], _ => []
  | (k, nd) :: rest, id =>
    if k = id then eraseNode rest id else (k, nd) :: eraseNode rest id

/-- The ids present in the store. -/
def keys (nodes : List (Nat × Node)) : List Nat :=
  nodes.map Prod.fst

/-- Modelled from the spec: `groove_player_insert` — allocates a fresh item
referencing `file` with adjustment `gain` and splices it in before `next`
(appending when `next` is null); when `next` does not belong to the playlist
the call fails with `InvalidReference`, modelled as returning the playlist
unchanged. -/
def Playlist.insert (p : Playlist) (file : Nat) (gain : Int) (next : Option Nat) : Playlist :=
  match next with
  | none =>
    let id := p.nextId
    { nodes := linkNext p.nodes p.playlist_tail (some id) ++
        [(id, ⟨p.playlist_tail, file, gain, none⟩)]
      playlist_head := match p.playlist_tail with
        | none => some id
        | some _ => p.playlist_head
      playlist_tail := some id
      count := p.count + 1
      nextId := id + 1 }
  | some t =>
    match findNode p.nodes t with
    | none => p
    | some tn =>
      let id := p.nextId
      { nodes := setPrev (linkNext p.nodes tn.prev (some id)) t (some id) ++
          [(id, ⟨tn.prev, file, gain, some t⟩)]
        playlist_head := match tn.prev with
          | none => some id
          | some _ => p.playlist_head
        playlist_tail := p.playlist_tail
        count := p.count + 1
        nextId := id + 1 }

/-- Modelled from the spec: `groove_player_remove` — splices the item out in
O(1) (fixing its neighbours' links and the head/tail pointers) and frees it;
an id that is not a member fails with `InvalidReference`, modelled as
returning the playlist unchanged. -/
def Playlist.remove (p : Playlist) (id : Nat) : Playlist :=
  match findNode p.nodes id with
  | none => p
  | some nd =>
    { nodes := linkPrev (linkNext (eraseNode p.nodes id) nd.prev nd.next) nd.next nd.prev
      playlist_head := match nd.prev with
        | none => nd.next
        | some _ => p.playlist_head
      playlist_tail := match nd.next with
        | none => nd.prev
        | some _ => p.playlist_tail
      count := p.count - 1
      nextId := p.nextId }

/-- The empty playlist, as `groove_create_player` leaves it. -/
def Playlist.empty : Playlist := ⟨[], none, none, 0, 0⟩

/-- Follow `next` pointers from a starting pointer for at most `fuel` steps,
recording the ids visited.  This is the head-to-tail traversal the claimed
invariants speak about. -/
def traverseNext (nodes : List (Nat × Node)) : Option Nat → Nat → List Nat
  | none, _ => []
  | some _, 0 => []
  | some i, fuel + 1 => i :: traverseNext nodes ((findNode nodes i).bind Node.next) fuel

/-- Playlist states reachable by a sequence of insert and remove operations
starting from the empty playlist. -/
inductive PlaylistReach : Playlist → Prop where
  | empty : PlaylistReach Playlist.empty
  | insert (p : Playlist) (file : Nat) (gain : Int) (next : Option Nat) :
      PlaylistReach p → PlaylistReach (p.insert file gain next)
  | remove (p : Playlist) (id : Nat) :
      PlaylistReach p → PlaylistReach (p.remove id)

/-- The prev pointer expected for the element directly after segment `a`,
when the whole segment is entered with prev pointer `pr`. -/
def prevOfSeg (pr : Option Nat) (a : List Nat) : Option Nat :=
  match a.getLast? with
  | none => pr
  | some z => some z

/-- `repChain nodes pr xs` — the ids `xs`, in order, form a doubly linked
chain in the store: each has the preceding id as `prev` (the first has `pr`)
and the following id as `next` (the last has `none`). -/
def repChain (nodes : List (Nat × Node)) : Option Nat → List Nat → Prop
  | _, [] => True
  | pr, i :: rest =>
    ∃ nd, findNode nodes i = some nd ∧ nd.prev = pr ∧ nd.next = rest.head? ∧
      repChain nodes (some i) rest

/-- Abstraction relation: the playlist state faithfully represents the
logical sequence `xs` of item ids. -/
structure Represents (p : Playlist) (xs : List Nat) : Prop where
  chain : repChain p.nodes none xs
  headEq : p.playlist_head = xs.head?
  tailEq : p.playlist_tail = xs.getLast?
  countEq : p.count = xs.length
  keysPerm : (keys p.nodes).Perm xs
  keysNodup : (keys p.nodes).Nodup
  fresh : ∀ i ∈ keys p.nodes, i < p.nextId

example : (Playlist.empty.insert 7 0 none).count = 1 := by decide
example : ((Playlist.empty.insert 7 0 none).insert 8 0 none).playlist_tail = some 1 := by decide
example :
    (((Playlist.empty.insert 7 0 none).insert 8 0 none).remove 0).playlist_head = some 1 := by
  decide
example :
    traverseNext ((Playlist.empty.insert 7 0 none).insert 8 0 (some 0)).nodes
      ((Playlist.empty.insert 7 0 none).insert 8 0 (some 0)).playlist_head 2 = [1, 0] := by
  decide

/-! ### Player events and the event channel -/

/-- Modelled from the spec: `GroovePlayerEventType` — the two discrete player
events. -/
inductive GrooveEvent where
  | nowPlaying
  | bufferUnderrun
deriving DecidableEq, Repr

/-- Modelled from the spec: the Event Channel — a FIFO queue of events, the
producer side being internal to the Player Engine. -/
structure EventChannel where
  q : List GrooveEvent
deriving DecidableEq, Repr

/-- Producer side: append an event at the back of the queue. -/
def eventEnqueue (c : EventChannel) (e : GrooveEvent) : EventChannel :=
  ⟨c.q ++ [e]⟩

/-- Modelled from the spec: `groove_player_event_poll` — non-blocking; removes
and returns the oldest unconsumed event, or reports none ready. -/
def groove_player_event_poll (c : EventChannel) : Option GrooveEvent × EventChannel :=
  match c.q with
  | [] => (none, c)
  | e :: rest => (some e, ⟨rest⟩)

/-- Modelled from the spec: `groove_player_event_wait` — blocks until an event
is available, then dequeues exactly one.  In this sequential model a wait on
an empty queue suspends the consumer, observed here as consuming nothing. -/
def groove_player_event_wait (c : EventChannel) : Option GrooveEvent × EventChannel :=
  groove_player_event_poll c

/-- Modelled from the spec: `groove_player_event_peek` — reports readiness
(1 ready, 0 not ready) without dequeuing; the `block` flag only affects
timing, never the queue contents. -/
def groove_player_event_peek (c : EventChannel) (block : Bool) : Int × EventChannel :=
  (if c.q = [] then 0 else 1, c)

/-- A consumer/producer action on the event channel, for interleaving
traces. -/
inductive ChanOp where
  | enq (e : GrooveEvent)
  | poll
  | wait
  | peek (block : Bool)
deriving DecidableEq, Repr

/-- Run a trace of channel operations, returning the final channel and the
events observed by consumers, in observation order. -/
def chanRun : List ChanOp → EventChannel → EventChannel × List GrooveEvent
  | [], c => (c, [])
  | ChanOp.enq e :: rest, c => chanRun rest (eventEnqueue c e)
  | ChanOp.poll :: rest, c =>
    let r := groove_player_event_poll c
    let out := chanRun rest r.2
    (out.1, r.1.toList ++ out.2)
  | ChanOp.wait :: rest, c =>
    let r := groove_player_event_wait c
    let out := chanRun rest r.2
    (out.1, r.1.toList ++ out.2)
  | ChanOp.peek b :: rest, c => chanRun rest (groove_player_event_peek c b).2

/-- The events a trace enqueues, in enqueue order. -/
def chanEnqs : List ChanOp → List GrooveEvent
  | [] => []
  | ChanOp.enq e :: rest => e :: chanEnqs rest
  | _ :: rest => chanEnqs rest

/-! ### Player: play head, removal of the current item, position -/

/-- Modelled from the spec: the `GroovePlayer` state — the playlist, the
play-head (current item id and offset seconds), the playing/paused flag and
the pending event queue. -/
structure Player where
  pl : Playlist
  cur : Option Nat
  sec : ℚ
  playing : Bool
  events : EventChannel
deriving DecidableEq, Repr

/-- Modelled from the spec: `groove_player_position` — returns the play-head
item and offset; the item is null exactly when the playlist is empty (when
playback is stopped the play head rests at the start of the playlist). -/
def groove_player_position (p : Player) : Option Nat × ℚ :=
  match p.pl.playlist_head with
  | none => (none, 0)
  | some h =>
    match p.cur with
    | some i => (some i, p.sec)
    | none => (some h, 0)

/-- Modelled from the spec: `groove_player_play` — transitions to Playing;
idempotent; on an empty playlist there is nothing to play and the call is a
no-op that emits no event. -/
def groove_player_play (p : Player) : Player :=
  match p.pl.playlist_head with
  | none => p
  | some _ => { p with playing := true }

/-- Modelled from the spec: `groove_player_remove` at the player level —
splices the item out of the playlist; when the removed item is the current
one the play-head advances to the item that followed it at the moment of
removal, or playback stops if none follows.  A non-member id fails with
`InvalidReference` and changes nothing. -/
def groove_player_remove (p : Player) (id : Nat) : Player :=
  match findNode p.pl.nodes id with
  | none => p
  | some nd =>
    if p.cur = some id then
      { pl := p.pl.remove id
        cur := nd.next
        sec := 0
        playing := match nd.next with
          | none => false
          | some _ => p.playing
        events := p.events }
    else
      { p with pl := p.pl.remove id }

/-- One step of `groove_player_clear`: remove the head item. -/
def clearStep : Nat → Player → Player
  | 0, p => p
  | fuel + 1, p =>
    match p.pl.playlist_head with
    | none => p
    | some h => clearStep fuel (groove_player_remove p h)

/-- Modelled from the spec: `groove_player_clear` — removes all playlist
items, one at a time from the head, in O(n). -/
def groove_player_clear (p : Player) : Player :=
  clearStep p.pl.nodes.length p

/-! ### Files and the whole-system frame for remove/clear/destroy -/

/-- Modelled from the spec: a `GrooveFile` — its mutable tag set, the tag set
persisted on disk, and the `dirty` flag recording unsaved edits. -/
structure GFile where
  tags : List (String × String)
  disk : List (String × String)
  dirty : Bool
deriving DecidableEq, Repr

/-- Modelled from the spec: the process state visible to the player API — one
player plus the table of open `GrooveFile`s (`groove_close` would drop or
mutate entries of this table; playlist operations must not). -/
structure GrooveSystem where
  player : Player
  files : List (Nat × GFile)
deriving DecidableEq, Repr

/-- `groove_player_remove` acting on the whole system. -/
def sysRemove (s : GrooveSystem) (id : Nat) : GrooveSystem :=
  { s with player := groove_player_remove s.player id }

/-- `groove_player_clear` acting on the whole system. -/
def sysClear (s : GrooveSystem) : GrooveSystem :=
  { s with player := groove_player_clear s.player }

/-- Modelled from the spec: `groove_destroy_player` — tears the playlist down
(freeing every item) and discards the player; it does not call `groove_close`
on any file. -/
def sysDestroy (s : GrooveSystem) : GrooveSystem :=
  { s with player := groove_player_clear s.player }

/-! ### Decode-ahead engine: play head versus decode head -/

/-- Target depth of the decode-ahead buffer, in seconds (the spec's ≈200 ms). -/
def lookAheadTarget : ℚ := 1 / 5

/-- Duration of one decoded PCM frame, in seconds. -/
def frameDuration : ℚ := 1 / 100

/-- The configured maximum look-ahead: decoding is gated on being below the
target depth, so the decode head never runs more than one frame past it. -/
def maxLookAhead : ℚ := lookAheadTarget + frameDuration

/-- Modelled from the spec: the play-head/decode-head part of the Player
Engine state, positions measured in playback-time seconds. -/
structure EngineState where
  playing : Bool
  playHead : ℚ
  decodeHead : ℚ
deriving DecidableEq, Repr

/-- Modelled from the spec: one step of the concurrent player activities —
the decode-ahead loop pulls one frame while Playing and below the target
depth; the output feed consumes buffered audio (never past the decode head);
`seek` relocates both heads to the same target; `play`/`pause` toggle the
flag. -/
inductive EngineStep : EngineState → EngineState → Prop where
  | decode (s : EngineState) :
      s.playing = true → s.decodeHead - s.playHead < lookAheadTarget →
      EngineStep s { s with decodeHead := s.decodeHead + frameDuration }
  | output (s : EngineState) (d : ℚ) :
      0 ≤ d → s.playHead + d ≤ s.decodeHead →
      EngineStep s { s with playHead := s.playHead + d }
  | seek (s : EngineState) (t : ℚ) :
      EngineStep s { s with playHead := t, decodeHead := t }
  | play (s : EngineState) : EngineStep s { s with playing := true }
  | pause (s : EngineState) : EngineStep s { s with playing := false }

/-- Engine states reachable from the initial (stopped, both heads at 0)
state under any interleaving of the engine activities and API calls. -/
inductive EngineReach : EngineState → Prop where
  | init : EngineReach ⟨false, 0, 0⟩
  | step {s s' : EngineState} : EngineReach s → EngineStep s s' → EngineReach s'

/-! ### Replay gain scan -/

/-- Modelled from the spec: a Scan Entry — the caller's userdata tag plus the
full decoded PCM sample sequence of the source (sample magnitudes as ℚ). -/
structure ScanEntry where
  userdata : Nat
  samples : List ℚ
deriving DecidableEq, Repr

/-- Peak amplitude of one entry: maximum absolute sample value. -/
def peakOf (e : ScanEntry) : ℚ :=
  e.samples.foldl (fun a x => max a |x|) 0

/-- Modelled from the spec: the shared loudness-histogram state into which
every analyzed frame is accumulated (an RMS-style measure: running sample
energy and sample count). -/
structure LoudnessState where
  energy : ℚ
  blocks : Nat
deriving DecidableEq, Repr

/-- The empty loudness accumulator. -/
def initLoudness : LoudnessState := ⟨0, 0⟩

/-- Accumulate one source's samples into the shared loudness state. -/
def accumSamples (st : LoudnessState) (xs : List ℚ) : LoudnessState :=
  xs.foldl (fun s x => ⟨s.energy + x * x, s.blocks + 1⟩) st

/-- Reference loudness level the gain is computed against. -/
def referenceLevel : ℚ := 89

/-- Modelled from the spec: the one-shot reduction of accumulated loudness
state to a recommended gain (RMS-based measure referenced to a standard
target loudness; kept in the energy domain over ℚ). -/
def reduceGain (st : LoudnessState) : ℚ :=
  referenceLevel - st.energy / (st.blocks : ℚ)

/-- The gain of a single entry analyzed on its own. -/
def entryGain (e : ScanEntry) : ℚ :=
  reduceGain (accumSamples initLoudness e.samples)

/-- Modelled from the spec: the scan's callbacks.  Each returns the value of
`abort_request` as it stands when the callback returns (the caller may set it
to 1 during any callback to request an abort). -/
structure ScanCallbacks where
  file_progress : Nat → ℚ → Bool
  file_complete : Nat → ℚ → ℚ → Bool

/-- Running state of `groove_replaygainscan_exec`: entries analyzed so far,
completion callbacks issued so far, shared loudness state, running aggregate
peak, and the abort flag. -/
structure ScanOutcome where
  analyzed : List ScanEntry
  completions : List (Nat × ℚ × ℚ)
  state : LoudnessState
  peak : ℚ
  abort : Bool
deriving DecidableEq, Repr

/-- The outcome state at the start of `exec`. -/
def initOutcome : ScanOutcome := ⟨[], [], initLoudness, 0, false⟩

/-- Modelled from the spec: the main loop of `groove_replaygainscan_exec` —
entries are taken in queue order; the abort flag is checked before an entry
transitions from Queued to Analyzing; an entry being analyzed is decoded
fully (samples accumulated into the shared loudness state, peak folded into
the aggregate), its progress callback runs during decode and its completion
callback receives that entry's own gain and peak; an abort requested during
either callback therefore stops the scan only after the current entry. -/
def scanGo (cb : ScanCallbacks) : List ScanEntry → ScanOutcome → ScanOutcome
  | [], o => o
  | e :: rest, o =>
    if o.abort then o
    else
      let ab1 := o.abort || cb.file_progress e.userdata 1
      let g := entryGain e
      let pk := peakOf e
      let ab2 := ab1 || cb.file_complete e.userdata g pk
      scanGo cb rest
        { analyzed := o.analyzed ++ [e]
          completions := o.completions ++ [(e.userdata, g, pk)]
          state := accumSamples o.state e.samples
          peak := max o.peak pk
          abort := ab2 }

/-- Modelled from the spec: `groove_replaygainscan_exec` — runs the scan over
the queued entries and returns the aggregate (album) gain reduced once from
the shared loudness state, the aggregate peak, and the per-entry completion
reports. -/
def groove_replaygainscan_exec (cb : ScanCallbacks) (entries : List ScanEntry) :
    ℚ × ℚ × List (Nat × ℚ × ℚ) :=
  let o := scanGo cb entries initOutcome
  (reduceGain o.state, o.peak, o.completions)

/-- Callbacks that never request an abort. -/
def cbQuiet : ScanCallbacks := ⟨fun _ _ => false, fun _ _ _ => false⟩

/-- Callbacks whose progress callback immediately sets `abort_request`. -/
def cbAbortFirst : ScanCallbacks := ⟨fun _ _ => true, fun _ _ _ => false⟩

/-- A constant-amplitude entry of peak 1/2. -/
def entryHalf : ScanEntry := ⟨0, [1/2, 1/2, 1/2, 1/2]⟩

/-- A constant-amplitude entry of peak 1. -/
def entryFull : ScanEntry := ⟨1, [1, 1]⟩

/-! ### Gain conversion -/

/-- From the header comment on `GroovePlaylistItem.gain`: the linear gain
for a decibel value is `exp(log(10) * 0.05 * dB)`. -/
noncomputable def db_to_gain (dB : ℝ) : ℝ :=
  Real.exp (Real.log 10 * 0.05 * dB)

/-- Modelled from the spec: the inverse conversion from a linear gain back to
decibels. -/
noncomputable def gain_to_db (g : ℝ) : ℝ :=
  Real.log g / (Real.log 10 * 0.05)

/-! ### Metadata editing -/

/-- Modelled from the spec: the flag bits accepted by
`groove_file_metadata_set` (`GROOVE_TAG_MATCH_CASE`,
`GROOVE_TAG_DONT_OVERWRITE`, `GROOVE_TAG_APPEND`). -/
structure TagFlags where
  matchCase : Bool
  dontOverwrite : Bool
  append : Bool
deriving DecidableEq, Repr

/-- Whether a stored key matches the requested key under the case flag. -/
def tagKeyMatches (matchCase : Bool) (k key : String) : Bool :=
  if matchCase then k == key else k.toLower == key.toLower

/-- Modelled from the spec: `groove_file_metadata_set` — edits the in-memory
tag set only (a null value deletes the entry; `DONT_OVERWRITE` keeps an
existing entry; `APPEND` concatenates without a delimiter), marks the file
dirty on an edit, returns `0` (≥ 0) on success, and never touches the disk
copy. -/
def groove_file_metadata_set (f : GFile) (key : String) (value : Option String)
    (flags : TagFlags) : GFile × Int :=
  match value with
  | none =>
    ({ f with
        tags := f.tags.filter fun kv => !tagKeyMatches flags.matchCase kv.1 key
        dirty := true }, 0)
  | some v =>
    if flags.dontOverwrite && f.tags.any (fun kv => tagKeyMatches flags.matchCase kv.1 key) then
      (f, 0)
    else if flags.append then
      match f.tags.find? (fun kv => tagKeyMatches flags.matchCase kv.1 key) with
      | some kv0 =>
        ({ f with
            tags := (f.tags.filter fun kv => !tagKeyMatches flags.matchCase kv.1 key) ++
              [(kv0.1, kv0.2 ++ v)]
            dirty := true }, 0)
      | none =>
        ({ f with tags := f.tags ++ [(key, v)], dirty := true }, 0)
    else
      ({ f with
          tags := (f.tags.filter fun kv => !tagKeyMatches flags.matchCase kv.1 key) ++
            [(key, v)]
          dirty := true }, 0)

/-- Modelled from the spec: `groove_file_save` — writes the in-memory tag set
to disk and clears the dirty flag; returns `0` on success. -/
def groove_file_save (f : GFile) : GFile × Int :=
  ({ f with disk := f.tags, dirty := false }, 0)

/-! ### Store lemmas -/

theorem findNode_append (l1 l2 : List (Nat × Node)) (i : Nat) :
    findNode (l1 ++ l2) i =
      match findNode l1 i with
      | some nd => some nd
      | none => findNode l2 i := by
  induction l1 with
  | nil => simp [findNode]
  | cons kv rest ih =>
    obtain ⟨k, nd⟩ := kv
    by_cases h : k = i <;> simp [findNode, h, ih]

theorem findNode_setNext_eq (l : List (Nat × Node)) (j : Nat) (nx : Option Nat) :
    findNode (setNext l j nx) j =
      Option.map (fun nd => { nd with next := nx }) (findNode l j) := by
  induction l with
  | nil => rfl
  | cons kv rest ih =>
    obtain ⟨k, nd⟩ := kv
    by_cases h : k = j
    · subst h
      simp [setNext, findNode]
    · simp [setNext, findNode, h, ih]

theorem findNode_setNext_ne (l : List (Nat × Node)) (j i : Nat) (nx : Option Nat)
    (h : i ≠ j) : findNode (setNext l j nx) i = findNode l i := by
  induction l with
  | nil => rfl
  | cons kv rest ih =>
    obtain ⟨k, nd⟩ := kv
    by_cases hk : k = j
    · subst hk
      have hki : ¬ k = i := fun e => h (by simp [e])
      simp [setNext, findNode, hki, ih]
    · by_cases hki : k = i <;> simp [setNext, findNode, hk, hki, h, ih]

theorem findNode_setPrev_eq (l : List (Nat × Node)) (j : Nat) (pv : Option Nat) :
    findNode (setPrev l j pv) j =
      Option.map (fun nd => { nd with prev := pv }) (findNode l j) := by
  induction l with
  | nil => rfl
  | cons kv rest ih =>
    obtain ⟨k, nd⟩ := kv
    by_cases h : k = j
    · subst h
      simp [setPrev, findNode]
    · simp [setPrev, findNode, h, ih]

theorem findNode_setPrev_ne (l : List (Nat × Node)) (j i : Nat) (pv : Option Nat)
    (h : i ≠ j) : findNode (setPrev l j pv) i = findNode l i := by
  induction l with
  | nil => rfl
  | cons kv rest ih =>
    obtain ⟨k, nd⟩ := kv
    by_cases hk : k = j
    · subst hk
      have hki : ¬ k = i := fun e => h (by simp [e])
      simp [setPrev, findNode, hki, ih]
    · by_cases hki : k = i <;> simp [setPrev, findNode, hk, hki, h, ih]

theorem findNode_erase_eq (l : List (Nat × Node)) (j : Nat) :
    findNode (eraseNode l j) j = none := by
  induction l with
  | nil => rfl
  | cons kv rest ih =>
    obtain ⟨k, nd⟩ := kv
    by_cases h : k = j <;> simp [eraseNode, findNode, h, ih]

theorem findNode_erase_ne (l : List (Nat × Node)) (j i : Nat) (h : i ≠ j) :
    findNode (eraseNode l j) i = findNode l i := by
  induction l with
  | nil => rfl
  | cons kv rest ih =>
    obtain ⟨k, nd⟩ := kv
    by_cases hk : k = j
    · subst hk
      have hki : ¬ k = i := fun e => h (by simp [e])
      simp [eraseNode, findNode, hki, ih]
    · by_cases hki : k = i <;> simp [eraseNode, findNode, hk, hki, h, ih]

theorem keys_setNext (l : List (Nat × Node)) (j : Nat) (nx : Option Nat) :
    keys (setNext l j nx) = keys l := by
  induction l with
  | nil => rfl
  | cons kv rest ih =>
    obtain ⟨k, nd⟩ := kv
    by_cases h : k = j <;> simp [setNext, keys, h] <;> simpa [keys] using ih

theorem keys_setPrev (l : List (Nat × Node)) (j : Nat) (pv : Option Nat) :
    keys (setPrev l j pv) = keys l := by
  induction l with
  | nil => rfl
  | cons kv rest ih =>
    obtain ⟨k, nd⟩ := kv
    by_cases h : k = j <;> simp [setPrev, keys, h] <;> simpa [keys] using ih

theorem keys_append (l1 l2 : List (Nat × Node)) : keys (l1 ++ l2) = keys l1 ++ keys l2 := by
  simp [keys]

theorem keys_erase (l : List (Nat × Node)) (j : Nat) :
    keys (eraseNode l j) = (keys l).filter (fun k => k != j) := by
  induction l with
  | nil => rfl
  | cons kv rest ih =>
    obtain ⟨k, nd⟩ := kv
    by_cases h : k = j <;> simp [eraseNode, keys, h] <;> simpa [keys] using ih

theorem findNode_isSome_iff (l : List (Nat × Node)) (i : Nat) :
    (findNode l i).isSome = true ↔ i ∈ keys l := by
  induction l with
  | nil => simp [findNode, keys]
  | cons kv rest ih =>
    obtain ⟨k, nd⟩ := kv
    by_cases h : k = i <;> simp [findNode, keys, h, ih]
    exact fun hk => (h hk.symm).elim

theorem findNode_eq_none_iff (l : List (Nat × Node)) (i : Nat) :
    findNode l i = none ↔ i ∉ keys l := by
  rw [← findNode_isSome_iff]
  cases findNode l i <;> simp

theorem keys_linkNext (l : List (Nat × Node)) (o nx : Option Nat) :
    keys (linkNext l o nx) = keys l := by
  cases o <;> simp [linkNext, keys_setNext]

theorem keys_linkPrev (l : List (Nat × Node)) (o pv : Option Nat) :
    keys (linkPrev l o pv) = keys l := by
  cases o <;> simp [linkPrev, keys_setPrev]

/-! ### Chain lemmas -/

theorem repChain_congr (l l' : List (Nat × Node)) (xs : List Nat) :
    ∀ pr, (∀ i ∈ xs, findNode l' i = findNode l i) → repChain l pr xs → repChain l' pr xs := by
  induction xs with
  | nil => intro pr _ _; trivial
  | cons x rest ih =>
    intro pr hagree hchain
    obtain ⟨nd, hfind, hprev, hnext, hrest⟩ := hchain
    exact ⟨nd, (hagree x (List.mem_cons_self x rest)).trans hfind, hprev, hnext,
      ih (some x) (fun i hi => hagree i (List.mem_cons_of_mem x hi)) hrest⟩

theorem repChain_mem_isSome (l : List (Nat × Node)) (xs : List Nat) (i : Nat) :
    ∀ pr, repChain l pr xs → i ∈ xs → (findNode l i).isSome = true := by
  induction xs with
  | nil => intro pr _ hmem; cases hmem
  | cons x rest ih =>
    intro pr hchain hmem
    obtain ⟨nd, hfind, -, -, hrest⟩ := hchain
    rcases List.mem_cons.mp hmem with h | h
    · subst h; simp [hfind]
    · exact ih (some x) hrest h

theorem prevOfSeg_cons (pr : Option Nat) (x : Nat) (a : List Nat) :
    prevOfSeg pr (x :: a) = prevOfSeg (some x) a := by
  cases a with
  | nil => rfl
  | cons y a' =>
    simp only [prevOfSeg, List.getLast?_cons_cons]
    rcases e : (y :: a').getLast? with _ | z
    · exact absurd (List.getLast?_eq_none_iff.mp e) (by simp)
    · rfl

theorem repChain_decomp (l : List (Nat × Node)) (t : Nat) (b : List Nat) :
    ∀ (a : List Nat) (pr : Option Nat), repChain l pr (a ++ t :: b) →
      ∃ tn, findNode l t = some tn ∧ tn.prev = prevOfSeg pr a ∧ tn.next = b.head? ∧
        repChain l (some t) b := by
  intro a
  induction a with
  | nil =>
    intro pr hchain
    obtain ⟨nd, hfind, hprev, hnext, hrest⟩ := hchain
    exact ⟨nd, hfind, by simpa [prevOfSeg] using hprev, hnext, hrest⟩
  | cons x a' ih =>
    intro pr hchain
    obtain ⟨nd, hfind, hprev, hnext, hrest⟩ := hchain
    obtain ⟨tn, h1, h2, h3, h4⟩ := ih (some x) hrest
    exact ⟨tn, h1, by rw [prevOfSeg_cons]; exact h2, h3, h4⟩

theorem repChain_traverse (l : List (Nat × Node)) (xs : List Nat) :
    ∀ (pr : Option Nat) (fuel : Nat), repChain l pr xs → xs.length ≤ fuel →
      traverseNext l xs.head? fuel = xs := by
  induction xs with
  | nil => intro pr fuel _ _; simp [traverseNext]
  | cons x rest ih =>
    intro pr fuel hchain hfuel
    obtain ⟨nd, hfind, -, hnext, hrest⟩ := hchain
    obtain ⟨fuel', rfl⟩ : ∃ fuel', fuel = fuel' + 1 := by
      cases fuel with
      | zero => simp at hfuel
      | succ n => exact ⟨n, rfl⟩
    have hlen : rest.length ≤ fuel' := by simpa using hfuel
    simp only [List.head?_cons, traverseNext, hfind]
    have hb : (some nd).bind Node.next = nd.next := rfl
    rw [hb, hnext, ih (some x) fuel' hrest hlen]

theorem mem_of_getLast?_eq (l : List Nat) (t : Nat) (h : l.getLast? = some t) : t ∈ l := by
  have ht : t ∈ l.getLast? := by rw [h]; rfl
  obtain ⟨hne, he⟩ := List.mem_getLast?_eq_getLast ht
  rw [he]
  exact List.getLast_mem hne

theorem prevOfSeg_cases (pr : Option Nat) (a : List Nat) (z : Nat)
    (h : prevOfSeg pr a = some z) : z ∈ a ∨ pr = some z := by
  unfold prevOfSeg at h
  cases e : a.getLast? with
  | none => rw [e] at h; exact Or.inr h
  | some w =>
    rw [e] at h
    cases h
    exact Or.inl (mem_of_getLast?_eq a z e)

theorem findNode_insertStore_other (l : List (Nat × Node)) (np : Option Nat) (t id i : Nat)
    (nd : Node) (hit : i ≠ t) (hii : i ≠ id) (hiz : ∀ z, np = some z → i ≠ z) :
    findNode (setPrev (linkNext l np (some id)) t (some id) ++ [(id, nd)]) i = findNode l i := by
  have h1 : findNode (linkNext l np (some id)) i = findNode l i := by
    cases np with
    | none => rfl
    | some z => exact findNode_setNext_ne l z i (some id) (hiz z rfl)
  have h2 : findNode (setPrev (linkNext l np (some id)) t (some id)) i = findNode l i := by
    rw [findNode_setPrev_ne _ t i _ hit, h1]
  rw [findNode_append, h2]
  cases e : findNode l i with
  | some nd' => rfl
  | none => simp [findNode, Ne.symm hii]

theorem findNode_removeStore_other (l : List (Nat × Node)) (np nx : Option Nat) (i j : Nat)
    (hji : j ≠ i) (hjz : ∀ z, np = some z → j ≠ z) (hjy : ∀ y, nx = some y → j ≠ y) :
    findNode (linkPrev (linkNext (eraseNode l i) np nx) nx np) j = findNode l j := by
  have h1 : findNode (eraseNode l i) j = findNode l j := findNode_erase_ne l i j hji
  have h2 : findNode (linkNext (eraseNode l i) np nx) j = findNode l j := by
    cases np with
    | none => exact h1
    | some z =>
      simp only [linkNext]
      rw [findNode_setNext_ne _ z j nx (hjz z rfl)]
      exact h1
  cases nx with
  | none => exact h2
  | some y =>
    simp only [linkPrev]
    rw [findNode_setPrev_ne _ y j np (hjy y rfl)]
    exact h2

theorem repChain_snoc (l : List (Nat × Node)) (t id : Nat) (f : Nat) (g : Int) :
    ∀ (xs : List Nat) (pr : Option Nat),
      repChain l pr xs → xs.getLast? = some t → xs.Nodup →
      findNode l id = none → id ∉ xs →
      repChain (setNext l t (some id) ++ [(id, ⟨some t, f, g, none⟩)]) pr (xs ++ [id]) := by
  intro xs
  induction xs with
  | nil => intro pr _ hlast _ _ _; cases hlast
  | cons x rest ih =>
    intro pr hchain hlast hnodup hfresh hid
    obtain ⟨nd, hfind, hprev, hnext, hrest⟩ := hchain
    have hxid : x ≠ id := fun e => hid (e ▸ List.mem_cons_self x rest)
    cases rest with
    | nil =>
      have hxt : x = t := by
        simp only [List.getLast?_singleton] at hlast
        exact Option.some.inj hlast
      subst hxt
      refine ⟨⟨nd.prev, nd.file, nd.gain, some id⟩, ?_, hprev, rfl, ?_⟩
      · rw [findNode_append]
        rw [findNode_setNext_eq l x (some id), hfind]
        rfl
      · refine ⟨⟨some x, f, g, none⟩, ?_, rfl, rfl, trivial⟩
        rw [findNode_append]
        rw [findNode_setNext_ne l x id (some id) (Ne.symm hxid), hfresh]
        simp [findNode]
    | cons y rest' =>
      have hlast' : (y :: rest').getLast? = some t := by
        rwa [List.getLast?_cons_cons] at hlast
      have htmem : t ∈ y :: rest' := mem_of_getLast?_eq _ t hlast'
      have hxt : x ≠ t := by
        intro e
        subst e
        exact (List.nodup_cons.mp hnodup).1 htmem
      refine ⟨nd, ?_, hprev, by simpa using hnext, ?_⟩
      · rw [findNode_append]
        rw [findNode_setNext_ne l t x (some id) hxt, hfind]
      · have := ih (some x) hrest hlast' (List.nodup_cons.mp hnodup).2 hfresh
          (fun hm => hid (List.mem_cons_of_mem x hm))
        simpa using this

theorem repChain_insert_before (l : List (Nat × Node)) (t id : Nat) (np : Option Nat)
    (f : Nat) (g : Int) (b : List Nat) :
    ∀ (a : List Nat) (pr : Option Nat),
      repChain l pr (a ++ t :: b) →
      (a ++ t :: b).Nodup →
      np = prevOfSeg pr a →
      (∀ z, pr = some z → z ∉ a ++ t :: b) →
      (∀ z, pr = some z → z ≠ id) →
      findNode l id = none →
      id ∉ a ++ t :: b →
      repChain (setPrev (linkNext l np (some id)) t (some id) ++ [(id, ⟨np, f, g, some t⟩)])
        pr (a ++ id :: t :: b) := by
  intro a
  induction a with
  | nil =>
    intro pr hchain hnodup hnp hpr hprid hfresh hid
    obtain ⟨tn, hfindt, hprevt, hnextt, hrest⟩ := hchain
    have hidt : id ≠ t := fun e => hid (by simp [e])
    have hidb : id ∉ b := fun hm => hid (by simp [hm])
    have htb : t ∉ b := (List.nodup_cons.mp (by simpa using hnodup)).1
    have hnp' : np = pr := hnp
    have e1 : findNode (linkNext l np (some id)) id = none := by
      cases hz : np with
      | none => simpa [linkNext] using hfresh
      | some z =>
        have hzid : id ≠ z := Ne.symm (hprid z (hnp' ▸ hz))
        simp only [linkNext]
        rw [findNode_setNext_ne l z id (some id) hzid]
        exact hfresh
    have e2 : findNode (setPrev (linkNext l np (some id)) t (some id)) id = none := by
      rw [findNode_setPrev_ne _ t id _ hidt]
      exact e1
    refine ⟨⟨np, f, g, some t⟩, ?_, hnp', rfl, ?_⟩
    · rw [findNode_append, e2]
      simp [findNode]
    · have f1 : findNode (linkNext l np (some id)) t = some tn := by
        cases hz : np with
        | none => simpa [linkNext] using hfindt
        | some z =>
          have hztb : z ∉ ([] : List Nat) ++ t :: b := hpr z (hnp' ▸ hz)
          have htz : t ≠ z := fun e => hztb (by simp [← e])
          simp only [linkNext]
          rw [findNode_setNext_ne l z t (some id) htz]
          exact hfindt
      have f2 : findNode (setPrev (linkNext l np (some id)) t (some id)) t
          = some { tn with prev := some id } := by
        rw [findNode_setPrev_eq, f1]
        rfl
      refine ⟨{ tn with prev := some id }, ?_, rfl, by simpa using hnextt, ?_⟩
      · rw [findNode_append, f2]
      · refine repChain_congr l _ b (some t) ?_ hrest
        intro j hj
        refine findNode_insertStore_other l np t id j _ ?_ ?_ ?_
        · exact fun e => htb (e ▸ hj)
        · exact fun e => hidb (e ▸ hj)
        · intro z hz e
          have hztb : z ∉ ([] : List Nat) ++ t :: b := hpr z (hnp' ▸ hz)
          exact hztb (by simp [← e, hj])
  | cons x a' ih =>
    intro pr hchain hnodup hnp hpr hprid hfresh hid
    obtain ⟨xn, hfx, hpx, hnx, hrest⟩ := hchain
    have hnodup' : (a' ++ t :: b).Nodup := (List.nodup_cons.mp (by simpa using hnodup)).2
    have hxnot : x ∉ a' ++ t :: b := (List.nodup_cons.mp (by simpa using hnodup)).1
    have hxid : x ≠ id := fun e => hid (by simp [e])
    have hxt : x ≠ t := fun e => hxnot (by simp [e])
    have hid' : id ∉ a' ++ t :: b := fun hm => hid (List.mem_cons_of_mem x hm)
    have hnp2 : np = prevOfSeg (some x) a' := by rw [hnp, prevOfSeg_cons]
    have hrec := ih (some x) hrest hnodup' hnp2
      (fun z hz => by cases hz; exact hxnot)
      (fun z hz => by cases hz; exact hxid)
      hfresh hid'
    cases a' with
    | nil =>
      have hnpx : np = some x := by simpa [prevOfSeg] using hnp2
      have g1 : findNode (linkNext l np (some id)) x = some { xn with next := some id } := by
        rw [hnpx]
        simp only [linkNext]
        rw [findNode_setNext_eq, hfx]
        rfl
      have g2 : findNode (setPrev (linkNext l np (some id)) t (some id)) x
          = some { xn with next := some id } := by
        rw [findNode_setPrev_ne _ t x _ hxt]
        exact g1
      refine ⟨{ xn with next := some id }, ?_, hpx, by simp, hrec⟩
      rw [findNode_append, g2]
    | cons y a'' =>
      obtain ⟨w, hw⟩ : ∃ w, (y :: a'').getLast? = some w :=
        ⟨_, List.getLast?_eq_getLast_of_ne_nil (by simp)⟩
      have hnpw : np = some w := by
        rw [hnp2]
        simp [prevOfSeg, hw]
      have hwmem : w ∈ y :: a'' := mem_of_getLast?_eq _ w hw
      have hxw : x ≠ w := fun e => hxnot (List.mem_append_left _ (e ▸ hwmem))
      have g3 : findNode
          (setPrev (linkNext l np (some id)) t (some id) ++ [(id, ⟨np, f, g, some t⟩)]) x
          = some xn := by
        rw [findNode_insertStore_other l np t id x _ hxt hxid
          (fun z hz => by rw [hnpw] at hz; cases hz; exact hxw)]
        exact hfx
      exact ⟨xn, g3, hpx, by simpa using hnx, hrec⟩

theorem mem_of_head?_eq (l : List Nat) (y : Nat) (h : l.head? = some y) : y ∈ l := by
  cases l with
  | nil => cases h
  | cons a l' =>
    have ha : a = y := by simpa using h
    subst ha
    exact List.mem_cons_self a l'

theorem repChain_remove_mid (l : List (Nat × Node)) (i : Nat) (nd : Node) (b : List Nat) :
    ∀ (a : List Nat) (pr : Option Nat),
      repChain l pr (a ++ i :: b) →
      (a ++ i :: b).Nodup →
      findNode l i = some nd →
      nd.prev = prevOfSeg pr a →
      nd.next = b.head? →
      (∀ z, pr = some z → z ∉ a ++ i :: b) →
      repChain (linkPrev (linkNext (eraseNode l i) nd.prev nd.next) nd.next nd.prev)
        pr (a ++ b) := by
  intro a
  induction a with
  | nil =>
    intro pr hchain hnodup hfind hnp hnext hpr
    have hib : i ∉ b := (List.nodup_cons.mp (by simpa using hnodup)).1
    have hprb : nd.prev = pr := hnp
    obtain ⟨nd0, hfind0, hprev0, hnext0, hrest⟩ := hchain
    cases b with
    | nil => trivial
    | cons y b' =>
      obtain ⟨yn, hfy, hpy, hny, hrest'⟩ := hrest
      have hyi : y ≠ i := fun e => hib (by simp [← e])
      have hnexty : nd.next = some y := by simpa using hnext
      have h1 : findNode (eraseNode l i) y = some yn := by
        rw [findNode_erase_ne l i y hyi]
        exact hfy
      have h2 : findNode (linkNext (eraseNode l i) nd.prev nd.next) y = some yn := by
        cases hz : nd.prev with
        | none => simpa [linkNext] using h1
        | some z =>
          have hz' : pr = some z := by rw [← hprb, hz]
          have hznot : z ∉ ([] : List Nat) ++ i :: y :: b' := hpr z hz'
          have hyz : y ≠ z := fun e => hznot (by simp [← e])
          simp only [linkNext]
          rw [findNode_setNext_ne _ z y _ hyz]
          exact h1
      have h3 : findNode (linkPrev (linkNext (eraseNode l i) nd.prev nd.next) nd.next nd.prev) y
          = some { yn with prev := nd.prev } := by
        rw [hnexty]
        rw [hnexty] at h2
        simp only [linkPrev]
        rw [findNode_setPrev_eq, h2]
        rfl
      refine ⟨{ yn with prev := nd.prev }, h3, by simpa using hprb, by simpa using hny, ?_⟩
      refine repChain_congr l _ b' (some y) ?_ hrest'
      intro j hj
      have hnodupb : (y :: b').Nodup := (List.nodup_cons.mp (by simpa using hnodup)).2
      refine findNode_removeStore_other l nd.prev nd.next i j ?_ ?_ ?_
      · exact fun e => hib (e ▸ List.mem_cons_of_mem y hj)
      · intro z hz e
        have hz' : pr = some z := by rw [← hprb, hz]
        exact hpr z hz' (by simp [← e, List.mem_cons_of_mem y hj])
      · intro y' hy' e
        rw [hnexty] at hy'
        cases hy'
        exact (List.nodup_cons.mp hnodupb).1 (e ▸ hj)
  | cons x a' ih =>
    intro pr hchain hnodup hfind hnp hnext hpr
    obtain ⟨xn, hfx, hpx, hnx, hrest⟩ := hchain
    have hnodup' : (a' ++ i :: b).Nodup := (List.nodup_cons.mp (by simpa using hnodup)).2
    have hxnot : x ∉ a' ++ i :: b := (List.nodup_cons.mp (by simpa using hnodup)).1
    have hxi : x ≠ i := fun e => hxnot (by simp [e])
    have hnp2 : nd.prev = prevOfSeg (some x) a' := by rw [hnp, prevOfSeg_cons]
    have hrec := ih (some x) hrest hnodup' hfind hnp2 hnext
      (fun z hz => by cases hz; exact hxnot)
    cases a' with
    | nil =>
      have hnpx : nd.prev = some x := by simpa [prevOfSeg] using hnp2
      have g1 : findNode (eraseNode l i) x = some xn := by
        rw [findNode_erase_ne l i x hxi]
        exact hfx
      have g2 : findNode (linkNext (eraseNode l i) nd.prev nd.next) x
          = some { xn with next := nd.next } := by
        rw [hnpx]
        simp only [linkNext]
        rw [findNode_setNext_eq, g1]
        rfl
      have g3 : findNode (linkPrev (linkNext (eraseNode l i) nd.prev nd.next) nd.next nd.prev) x
          = some { xn with next := nd.next } := by
        cases hy : nd.next with
        | none => simpa [linkPrev, hy] using g2
        | some y =>
          have hyb : y ∈ b := mem_of_head?_eq b y (by rw [← hnext, hy])
          have hxy : x ≠ y :=
            fun e => hxnot (List.mem_append_right _ (List.mem_cons_of_mem i (e ▸ hyb)))
          simp only [linkPrev]
          rw [findNode_setPrev_ne _ y x _ hxy]
          rw [hy] at g2
          exact g2
      refine ⟨{ xn with next := nd.next }, g3, hpx, by simpa using hnext, hrec⟩
    | cons y' a'' =>
      obtain ⟨w, hw⟩ : ∃ w, (y' :: a'').getLast? = some w :=
        ⟨_, List.getLast?_eq_getLast_of_ne_nil (by simp)⟩
      have hnpw : nd.prev = some w := by
        rw [hnp2]
        simp [prevOfSeg, hw]
      have hwmem : w ∈ y' :: a'' := mem_of_getLast?_eq _ w hw
      have hxw : x ≠ w := fun e => hxnot (List.mem_append_left _ (e ▸ hwmem))
      have g4 : findNode (linkPrev (linkNext (eraseNode l i) nd.prev nd.next) nd.next nd.prev) x
          = some xn := by
        rw [findNode_removeStore_other l nd.prev nd.next i x hxi
          (fun z hz => by rw [hnpw] at hz; cases hz; exact hxw)
          (fun y0 hy0 e => by
            have hy0b : y0 ∈ b := mem_of_head?_eq b y0 (by rw [← hnext, hy0])
            exact hxnot (List.mem_append_right _ (List.mem_cons_of_mem i (e ▸ hy0b))))]
        exact hfx
      exact ⟨xn, g4, hpx, by simpa using hnx, hrec⟩

theorem prevOfSeg_none (a : List Nat) : prevOfSeg none a = a.getLast? := by
  unfold prevOfSeg
  cases a.getLast? <;> rfl

theorem head?_append_left (xs ys : List Nat) (h : xs ≠ []) :
    (xs ++ ys).head? = xs.head? := by
  cases xs with
  | nil => exact absurd rfl h
  | cons x xs' => rfl

theorem filter_bne_of_not_mem (a : List Nat) (i : Nat) (h : i ∉ a) :
    a.filter (fun k => k != i) = a := by
  refine List.filter_eq_self.mpr ?_
  intro x hx
  simp only [bne_iff_ne, ne_eq, decide_eq_true_eq]
  exact fun e => h (e ▸ hx)

theorem nodup_of_represents (p : Playlist) (xs : List Nat) (h : Represents p xs) :
    xs.Nodup :=
  h.keysPerm.nodup h.keysNodup

theorem represents_empty : Represents Playlist.empty [] := by
  refine ⟨trivial, rfl, rfl, rfl, List.Perm.refl _, List.nodup_nil, ?_⟩
  intro i hi
  cases hi

theorem represents_insert_append (p : Playlist) (xs : List Nat) (f : Nat) (g : Int)
    (h : Represents p xs) :
    Represents (p.insert f g none) (xs ++ [p.nextId]) := by
  obtain ⟨nodes, hd, tl, cnt, nid⟩ := p
  obtain ⟨hchain, hhead, htail, hcount, hperm, hnodup, hfresh⟩ := h
  dsimp only at hchain hhead htail hcount hperm hnodup hfresh ⊢
  have hidkeys : nid ∉ keys nodes := fun hm => lt_irrefl nid (hfresh nid hm)
  have hfindid : findNode nodes nid = none := (findNode_eq_none_iff _ _).mpr hidkeys
  have hidxs : nid ∉ xs := fun hm => hidkeys (hperm.mem_iff.mpr hm)
  have hnodupxs : xs.Nodup := hperm.nodup hnodup
  have hpermnew : (keys nodes ++ [nid]).Perm (xs ++ [nid]) := hperm.append (List.Perm.refl _)
  have hnodupnew : (keys nodes ++ [nid]).Nodup := by
    rw [List.nodup_append]
    refine ⟨hnodup, List.nodup_singleton nid, ?_⟩
    intro a ha hb
    have : a = nid := by simpa using hb
    exact hidkeys (this ▸ ha)
  have hfreshnew : ∀ i ∈ keys nodes ++ [nid], i < nid + 1 := by
    intro i hi
    rcases List.mem_append.mp hi with hl | hr
    · exact Nat.lt_succ_of_lt (hfresh i hl)
    · have : i = nid := by simpa using hr
      omega
  cases xs with
  | nil =>
    have htl : tl = none := htail
    have hnil : nodes = [] := by
      have : keys nodes = [] := hperm.eq_nil
      exact List.map_eq_nil_iff.mp this
    subst htl hnil
    have hcnt : cnt = 0 := hcount
    refine ⟨⟨⟨none, f, g, none⟩, by simp [Playlist.insert, linkNext, findNode], rfl, rfl,
      trivial⟩, rfl, rfl, ?_, ?_, ?_, ?_⟩
    · dsimp [Playlist.insert]
      omega
    · simp [Playlist.insert, linkNext, keys]
    · simp [Playlist.insert, linkNext, keys]
    · intro i hi
      simp [Playlist.insert, linkNext, keys] at hi
      dsimp [Playlist.insert]
      omega
  | cons x xs' =>
    obtain ⟨t, ht⟩ : ∃ t, (x :: xs').getLast? = some t :=
      ⟨_, List.getLast?_eq_getLast_of_ne_nil (by simp)⟩
    rw [ht] at htail
    subst htail
    have hchain' := repChain_snoc nodes t nid f g (x :: xs') none hchain ht hnodupxs
      hfindid hidxs
    refine ⟨by simpa [Playlist.insert, linkNext] using hchain', ?_, ?_, ?_, ?_, ?_, ?_⟩
    · simpa [Playlist.insert] using hhead
    · show some nid = ((x :: xs') ++ [nid]).getLast?
      rw [List.getLast?_concat]
    · dsimp [Playlist.insert]
      rw [hcount]
      simp
    · dsimp only [Playlist.insert, linkNext]
      rw [keys_append, keys_setNext]
      simpa [keys] using hpermnew
    · dsimp only [Playlist.insert, linkNext]
      rw [keys_append, keys_setNext]
      simpa [keys] using hnodupnew
    · intro i hi
      dsimp only [Playlist.insert] at hi ⊢
      rw [keys_append, keys_linkNext] at hi
      exact hfreshnew i (by simpa [keys] using hi)

theorem insert_not_found (p : Playlist) (f : Nat) (g : Int) (t : Nat)
    (h : findNode p.nodes t = none) : p.insert f g (some t) = p := by
  simp [Playlist.insert, h]

theorem remove_not_found (p : Playlist) (i : Nat) (h : findNode p.nodes i = none) :
    p.remove i = p := by
  simp [Playlist.remove, h]

theorem represents_insert_before (p : Playlist) (xs : List Nat) (f : Nat) (g : Int)
    (t : Nat) (tn : Node) (h : Represents p xs) (hft : findNode p.nodes t = some tn) :
    ∃ a b, xs = a ++ t :: b ∧
      Represents (p.insert f g (some t)) (a ++ p.nextId :: t :: b) := by
  have htk : t ∈ keys p.nodes := (findNode_isSome_iff _ _).mp (by rw [hft]; rfl)
  have htxs : t ∈ xs := h.keysPerm.mem_iff.mp htk
  obtain ⟨a, b, rfl⟩ := List.append_of_mem htxs
  refine ⟨a, b, rfl, ?_⟩
  obtain ⟨nodes, hd, tl, cnt, nid⟩ := p
  obtain ⟨hchain, hhead, htail, hcount, hperm, hnodup, hfresh⟩ := h
  dsimp only at hchain hhead htail hcount hperm hnodup hfresh hft ⊢
  have hidkeys : nid ∉ keys nodes := fun hm => lt_irrefl nid (hfresh nid hm)
  have hfindid : findNode nodes nid = none := (findNode_eq_none_iff _ _).mpr hidkeys
  have hidxs : nid ∉ a ++ t :: b := fun hm => hidkeys (hperm.mem_iff.mpr hm)
  have hnodupxs : (a ++ t :: b).Nodup := hperm.nodup hnodup
  obtain ⟨tn', hfind', hprev', hnext', hrest'⟩ := repChain_decomp nodes t b a none hchain
  have htn : tn' = tn := by
    rw [hfind'] at hft
    exact Option.some.inj hft
  subst htn
  have hchain2 := repChain_insert_before nodes t nid tn'.prev f g b a none hchain hnodupxs
    hprev' (fun z hz => by cases hz) (fun z hz => by cases hz) hfindid hidxs
  have hins : Playlist.insert ⟨nodes, hd, tl, cnt, nid⟩ f g (some t) =
      ⟨setPrev (linkNext nodes tn'.prev (some nid)) t (some nid) ++
          [(nid, ⟨tn'.prev, f, g, some t⟩)],
        match tn'.prev with
        | none => some nid
        | some _ => hd,
        tl, cnt + 1, nid + 1⟩ := by
    simp [Playlist.insert, hft]
  rw [hins]
  refine ⟨hchain2, ?_, ?_, ?_, ?_, ?_, ?_⟩
  · cases hprv : tn'.prev with
    | none =>
      have ha : a = [] := by
        rw [hprv, prevOfSeg_none] at hprev'
        exact List.getLast?_eq_none_iff.mp hprev'.symm
      subst ha
      rfl
    | some z =>
      have ha : a ≠ [] := by
        intro e
        subst e
        rw [prevOfSeg_none] at hprev'
        rw [hprv] at hprev'
        cases hprev'
      cases a with
      | nil => exact absurd rfl ha
      | cons a0 a1 => simpa using hhead
  · dsimp only
    rw [htail, List.getLast?_append_cons, List.getLast?_append_cons,
      List.getLast?_cons_cons]
  · dsimp only
    rw [hcount]
    simp
    omega
  · dsimp only
    rw [keys_append, keys_setPrev, keys_linkNext]
    have h1 : (keys nodes ++ keys [(nid, (⟨tn'.prev, f, g, some t⟩ : Node))]).Perm
        ((a ++ t :: b) ++ [nid]) := hperm.append (List.Perm.refl _)
    refine h1.trans ?_
    rw [List.append_assoc]
    exact List.Perm.append_left a (List.perm_append_singleton nid (t :: b))
  · rw [keys_append, keys_setPrev, keys_linkNext]
    rw [List.nodup_append]
    refine ⟨hnodup, List.nodup_singleton nid, ?_⟩
    intro w hw hww
    have : w = nid := by simpa [keys] using hww
    exact hidkeys (this ▸ hw)
  · intro j hj
    dsimp only at hj ⊢
    rw [keys_append, keys_setPrev, keys_linkNext] at hj
    rcases List.mem_append.mp hj with hl | hr
    · exact Nat.lt_succ_of_lt (hfresh j hl)
    · have : j = nid := by simpa [keys] using hr
      omega

theorem represents_remove (p : Playlist) (xs : List Nat) (i : Nat) (nd : Node)
    (h : Represents p xs) (hfind : findNode p.nodes i = some nd) :
    ∃ a b, xs = a ++ i :: b ∧ nd.next = b.head? ∧
      Represents (p.remove i) (a ++ b) := by
  have hik : i ∈ keys p.nodes := (findNode_isSome_iff _ _).mp (by rw [hfind]; rfl)
  have hixs : i ∈ xs := h.keysPerm.mem_iff.mp hik
  obtain ⟨a, b, rfl⟩ := List.append_of_mem hixs
  obtain ⟨nodes, hd, tl, cnt, nid⟩ := p
  obtain ⟨hchain, hhead, htail, hcount, hperm, hnodup, hfresh⟩ := h
  dsimp only at hchain hhead htail hcount hperm hnodup hfresh hfind ⊢
  have hnodupxs : (a ++ i :: b).Nodup := hperm.nodup hnodup
  have hdisj := List.nodup_append.mp hnodupxs
  have hia : i ∉ a := fun hi => hdisj.2.2 hi (List.mem_cons_self i b)
  have hib : i ∉ b := (List.nodup_cons.mp hdisj.2.1).1
  obtain ⟨nd', hfind', hprev', hnext', hrest'⟩ := repChain_decomp nodes i b a none hchain
  have hnd : nd' = nd := by
    rw [hfind'] at hfind
    exact Option.some.inj hfind
  subst hnd
  refine ⟨a, b, rfl, hnext', ?_⟩
  have hchain2 := repChain_remove_mid nodes i nd' b a none hchain hnodupxs hfind' hprev'
    hnext' (fun z hz => by cases hz)
  have hins : Playlist.remove ⟨nodes, hd, tl, cnt, nid⟩ i =
      ⟨linkPrev (linkNext (eraseNode nodes i) nd'.prev nd'.next) nd'.next nd'.prev,
        match nd'.prev with
        | none => nd'.next
        | some _ => hd,
        match nd'.next with
        | none => nd'.prev
        | some _ => tl,
        cnt - 1, nid⟩ := by
    simp [Playlist.remove, hfind']
  rw [hins]
  refine ⟨hchain2, ?_, ?_, ?_, ?_, ?_, ?_⟩
  · cases hprv : nd'.prev with
    | none =>
      have ha : a = [] := by
        rw [hprv, prevOfSeg_none] at hprev'
        exact List.getLast?_eq_none_iff.mp hprev'.symm
      subst ha
      simpa using hnext'
    | some z =>
      have ha : a ≠ [] := by
        intro e
        subst e
        rw [prevOfSeg_none] at hprev'
        rw [hprv] at hprev'
        cases hprev'
      cases a with
      | nil => exact absurd rfl ha
      | cons a0 a1 => simpa using hhead
  · cases hnxt : nd'.next with
    | none =>
      have hb : b = [] := by
        rw [hnxt] at hnext'
        exact List.head?_eq_none_iff.mp hnext'.symm
      subst hb
      dsimp only
      rw [hprev', prevOfSeg_none]
      simp
    | some y =>
      have hb : b ≠ [] := by
        intro e
        subst e
        rw [hnxt] at hnext'
        cases hnext'
      dsimp only
      rw [htail, List.getLast?_append_cons, List.getLast?_append_of_ne_nil a hb]
      cases b with
      | nil => exact absurd rfl hb
      | cons b0 b1 => rw [List.getLast?_cons_cons]
  · dsimp only
    rw [hcount]
    simp only [List.length_append, List.length_cons]
    omega
  · dsimp only
    rw [keys_linkPrev, keys_linkNext, keys_erase]
    have h1 : ((keys nodes).filter (fun k => k != i)).Perm
        ((a ++ i :: b).filter (fun k => k != i)) := hperm.filter _
    refine h1.trans ?_
    rw [List.filter_append, filter_bne_of_not_mem a i hia]
    have : (i :: b).filter (fun k => k != i) = b := by
      simp [List.filter, filter_bne_of_not_mem b i hib]
    rw [this]
  · rw [keys_linkPrev, keys_linkNext, keys_erase]
    exact List.Nodup.filter _ hnodup
  · intro j hj
    dsimp only at hj ⊢
    rw [keys_linkPrev, keys_linkNext, keys_erase] at hj
    exact hfresh j (List.mem_of_mem_filter hj)

theorem reach_represents (p : Playlist) (h : PlaylistReach p) :
    ∃ xs, Represents p xs := by
  induction h with
  | empty => exact ⟨[], represents_empty⟩
  | insert q f g nx _ ih =>
    obtain ⟨xs, hxs⟩ := ih
    cases nx with
    | none => exact ⟨xs ++ [q.nextId], represents_insert_append q xs f g hxs⟩
    | some t =>
      cases hft : findNode q.nodes t with
      | none => exact ⟨xs, by rw [insert_not_found q f g t hft]; exact hxs⟩
      | some tn =>
        obtain ⟨a, b, -, hrep⟩ := represents_insert_before q xs f g t tn hxs hft
        exact ⟨a ++ q.nextId :: t :: b, hrep⟩
  | remove q i _ ih =>
    obtain ⟨xs, hxs⟩ := ih
    cases hfi : findNode q.nodes i with
    | none => exact ⟨xs, by rw [remove_not_found q i hfi]; exact hxs⟩
    | some nd =>
      obtain ⟨a, b, -, -, hrep⟩ := represents_remove q xs i nd hxs hfi
      exact ⟨a ++ b, hrep⟩

theorem represents_adjacent_next (p : Playlist) (xs : List Nat) (i j : Nat) (nd : Node)
    (h : Represents p xs) (hfind : findNode p.nodes i = some nd) (hnext : nd.next = some j) :
    ∃ m, findNode p.nodes j = some m ∧ m.prev = some i := by
  have hik : i ∈ keys p.nodes := (findNode_isSome_iff _ _).mp (by rw [hfind]; rfl)
  have hixs : i ∈ xs := h.keysPerm.mem_iff.mp hik
  obtain ⟨a, b, rfl⟩ := List.append_of_mem hixs
  obtain ⟨nd', hfind', hprev', hnext', hrest'⟩ := repChain_decomp p.nodes i b a none h.chain
  have hnd : nd' = nd := by
    rw [hfind'] at hfind
    exact Option.some.inj hfind
  subst hnd
  rw [hnext] at hnext'
  cases b with
  | nil => cases hnext'
  | cons y b' =>
    have hyj : y = j := by simpa using hnext'.symm
    subst hyj
    obtain ⟨m, hfm, hpm, -, -⟩ := hrest'
    exact ⟨m, hfm, hpm⟩

theorem represents_adjacent_prev (p : Playlist) (xs : List Nat) (i j : Nat) (nd : Node)
    (h : Represents p xs) (hfind : findNode p.nodes i = some nd) (hprev : nd.prev = some j) :
    ∃ m, findNode p.nodes j = some m ∧ m.next = some i := by
  have hik : i ∈ keys p.nodes := (findNode_isSome_iff _ _).mp (by rw [hfind]; rfl)
  have hixs : i ∈ xs := h.keysPerm.mem_iff.mp hik
  obtain ⟨a, b, rfl⟩ := List.append_of_mem hixs
  obtain ⟨nd', hfind', hprev', hnext', hrest'⟩ := repChain_decomp p.nodes i b a none h.chain
  have hnd : nd' = nd := by
    rw [hfind'] at hfind
    exact Option.some.inj hfind
  subst hnd
  rw [hprev, prevOfSeg_none] at hprev'
  have hdecomp : a.dropLast ++ [j] = a := List.dropLast_append_getLast? j (by rw [← hprev']; rfl)
  have hxs2 : a ++ i :: b = a.dropLast ++ j :: i :: b := by
    rw [← hdecomp]
    simp
  obtain ⟨m, hfm, -, hnm, -⟩ :=
    repChain_decomp p.nodes j (i :: b) a.dropLast none (by rw [← hxs2]; exact h.chain)
  exact ⟨m, hfm, by simpa using hnm⟩

theorem represents_nil_iff (p : Playlist) (xs : List Nat) (h : Represents p xs) :
    p.nodes = [] ↔ xs = [] := by
  constructor
  · intro hn
    have : keys p.nodes = [] := by rw [hn]; rfl
    have hperm := h.keysPerm
    rw [this] at hperm
    exact (hperm.symm.eq_nil)
  · intro hx
    rw [hx] at h
    have : keys p.nodes = [] := h.keysPerm.eq_nil
    exact List.map_eq_nil_iff.mp this

/-- C1: after any sequence of inserts and removes starting from the empty
playlist, the doubly-linked-list invariants hold: the head-to-tail traversal
(bounded by `count` steps) visits pairwise-distinct items, has length exactly
`count`, starts at `playlist_head` and ends at `playlist_tail`;
`item.next.prev == item` for every stored item with a successor and
`item.prev.next == item` for every stored item with a predecessor; and
`playlist_head`, `playlist_tail` are null exactly when the playlist is empty,
which is exactly when `count` is zero. -/
theorem groove_playlist_invariants (p : Playlist) (h : PlaylistReach p) :
    (traverseNext p.nodes p.playlist_head p.count).Nodup
    ∧ (traverseNext p.nodes p.playlist_head p.count).length = p.count
    ∧ p.playlist_head = (traverseNext p.nodes p.playlist_head p.count).head?
    ∧ p.playlist_tail = (traverseNext p.nodes p.playlist_head p.count).getLast?
    ∧ (∀ i nd j, findNode p.nodes i = some nd → nd.next = some j →
        ∃ m, findNode p.nodes j = some m ∧ m.prev = some i)
    ∧ (∀ i nd j, findNode p.nodes i = some nd → nd.prev = some j →
        ∃ m, findNode p.nodes j = some m ∧ m.next = some i)
    ∧ (p.playlist_head = none ↔ p.nodes = [])
    ∧ (p.playlist_tail = none ↔ p.nodes = [])
    ∧ (p.count = 0 ↔ p.nodes = []) := by
  obtain ⟨xs, hrep⟩ := reach_represents p h
  have htr : traverseNext p.nodes p.playlist_head p.count = xs := by
    rw [hrep.headEq, hrep.countEq]
    exact repChain_traverse p.nodes xs none xs.length hrep.chain (le_refl _)
  have hnil := represents_nil_iff p xs hrep
  refine ⟨?_, ?_, ?_, ?_, ?_, ?_, ?_, ?_, ?_⟩
  · rw [htr]
    exact nodup_of_represents p xs hrep
  · rw [htr, hrep.countEq]
  · rw [htr, hrep.headEq]
  · rw [htr]
    exact hrep.tailEq
  · exact fun i nd j hf hn => represents_adjacent_next p xs i j nd hrep hf hn
  · exact fun i nd j hf hn => represents_adjacent_prev p xs i j nd hrep hf hn
  · rw [hrep.headEq, hnil]
    exact List.head?_eq_none_iff
  · rw [hrep.tailEq, hnil]
    exact List.getLast?_eq_none_iff
  · rw [hrep.countEq, hnil]
    exact List.length_eq_zero

/-- Witness for C1 at a concrete playlist built by an append-insert, an
insert-before, another append-insert and a removal. -/
theorem groove_playlist_invariants_witness :
    let p := (((Playlist.empty.insert 7 0 none).insert 8 0 (some 0)).insert 9 0 none).remove 0
    (traverseNext p.nodes p.playlist_head p.count).Nodup
    ∧ (traverseNext p.nodes p.playlist_head p.count).length = p.count
    ∧ p.playlist_head = (traverseNext p.nodes p.playlist_head p.count).head?
    ∧ p.playlist_tail = (traverseNext p.nodes p.playlist_head p.count).getLast?
    ∧ (∀ i nd j, findNode p.nodes i = some nd → nd.next = some j →
        ∃ m, findNode p.nodes j = some m ∧ m.prev = some i)
    ∧ (∀ i nd j, findNode p.nodes i = some nd → nd.prev = some j →
        ∃ m, findNode p.nodes j = some m ∧ m.next = some i)
    ∧ (p.playlist_head = none ↔ p.nodes = [])
    ∧ (p.playlist_tail = none ↔ p.nodes = [])
    ∧ (p.count = 0 ↔ p.nodes = []) :=
  groove_playlist_invariants _
    (PlaylistReach.remove _ 0 (PlaylistReach.insert _ 9 0 none
      (PlaylistReach.insert _ 8 0 (some 0)
        (PlaylistReach.insert _ 7 0 none PlaylistReach.empty))))

/-! ### Engine invariant -/

theorem engine_invariant (s : EngineState) (h : EngineReach s) :
    s.playHead ≤ s.decodeHead ∧ s.decodeHead - s.playHead ≤ maxLookAhead := by
  induction h with
  | init =>
    constructor <;> norm_num [maxLookAhead, lookAheadTarget, frameDuration]
  | step hr hstep ih =>
    cases hstep with
    | decode hp hlt =>
      have hfd : (0 : ℚ) < frameDuration := by norm_num [frameDuration]
      dsimp only
      constructor
      · linarith [ih.1]
      · dsimp only [maxLookAhead]
        linarith [hlt]
    | output d hd hle =>
      dsimp only
      constructor
      · linarith
      · linarith [ih.2]
    | seek t =>
      dsimp only
      constructor
      · linarith
      · norm_num [maxLookAhead, lookAheadTarget, frameDuration]
    | play => exact ih
    | pause => exact ih

/-- C2: in every reachable engine state in which the player is Playing, the
decode-head position is at least the play-head position in playback-time
ordering, and exceeds it by at most the configured maximum look-ahead (the
≈200 ms target depth plus one decoded frame). -/
theorem groove_decode_position_invariant (s : EngineState) (h : EngineReach s)
    (hp : s.playing = true) :
    s.playHead ≤ s.decodeHead ∧ s.decodeHead - s.playHead ≤ maxLookAhead :=
  engine_invariant s h

/-- Witness for C2 at the state reached from the initial state by pressing
play. -/
theorem groove_decode_position_invariant_witness :
    let s : EngineState := ⟨true, 0, 0⟩
    s.playHead ≤ s.decodeHead ∧ s.decodeHead - s.playHead ≤ maxLookAhead :=
  groove_decode_position_invariant ⟨true, 0, 0⟩
    (EngineReach.step EngineReach.init (EngineStep.play ⟨false, 0, 0⟩)) rfl

/-! ### Event channel lemmas -/

theorem chanRun_fifo (ops : List ChanOp) : ∀ c : EventChannel,
    (chanRun ops c).2 ++ (chanRun ops c).1.q = c.q ++ chanEnqs ops := by
  induction ops with
  | nil => intro c; simp [chanRun, chanEnqs]
  | cons op rest ih =>
    intro c
    cases op with
    | enq e =>
      have := ih (eventEnqueue c e)
      simp only [chanRun, chanEnqs]
      rw [this]
      simp [eventEnqueue]
    | poll =>
      obtain ⟨q⟩ := c
      cases q with
      | nil =>
        simp only [chanRun, chanEnqs, groove_player_event_poll, Option.toList_none,
          List.nil_append]
        exact ih ⟨[]⟩
      | cons e q' =>
        simp only [chanRun, chanEnqs, groove_player_event_poll, Option.toList_some,
          List.singleton_append, List.cons_append, List.nil_append, List.append_assoc]
        rw [ih ⟨q'⟩]
    | wait =>
      obtain ⟨q⟩ := c
      cases q with
      | nil =>
        simp only [chanRun, chanEnqs, groove_player_event_wait, groove_player_event_poll,
          Option.toList_none, List.nil_append]
        exact ih ⟨[]⟩
      | cons e q' =>
        simp only [chanRun, chanEnqs, groove_player_event_wait, groove_player_event_poll,
          Option.toList_some, List.singleton_append, List.cons_append, List.nil_append,
          List.append_assoc]
        rw [ih ⟨q'⟩]
    | peek b =>
      simp only [chanRun, chanEnqs, groove_player_event_peek]
      exact ih c

theorem chanRun_peek_transparent (post : List ChanOp) (b : Bool) :
    ∀ (pre : List ChanOp) (c : EventChannel),
      chanRun (pre ++ ChanOp.peek b :: post) c = chanRun (pre ++ post) c := by
  intro pre
  induction pre with
  | nil => intro c; rfl
  | cons op rest ih =>
    intro c
    cases op with
    | enq e =>
      show chanRun (ChanOp.enq e :: (rest ++ ChanOp.peek b :: post)) c
          = chanRun (ChanOp.enq e :: (rest ++ post)) c
      simp only [chanRun]
      rw [ih]
    | poll =>
      show chanRun (ChanOp.poll :: (rest ++ ChanOp.peek b :: post)) c
          = chanRun (ChanOp.poll :: (rest ++ post)) c
      simp only [chanRun]
      rw [ih]
    | wait =>
      show chanRun (ChanOp.wait :: (rest ++ ChanOp.peek b :: post)) c
          = chanRun (ChanOp.wait :: (rest ++ post)) c
      simp only [chanRun]
      rw [ih]
    | peek b' =>
      show chanRun (ChanOp.peek b' :: (rest ++ ChanOp.peek b :: post)) c
          = chanRun (ChanOp.peek b' :: (rest ++ post)) c
      simp only [chanRun]
      rw [ih]

/-- C3: the Event Channel is FIFO — over any operation trace the events
consumed, in observation order, followed by the events still queued, equal
the starting queue followed by the events enqueued, in enqueue order (so an
event enqueued earlier is always observed earlier); and `event_peek`
(blocking or not) is transparent: deleting it from any trace changes
nothing, it never alters the queue, it reports ready exactly when a poll
would return an event, and `poll`/`wait` return the oldest queued event. -/
theorem groove_event_channel_fifo (ops : List ChanOp) (c : EventChannel)
    (pre post : List ChanOp) (b : Bool) :
    (chanRun ops c).2 ++ (chanRun ops c).1.q = c.q ++ chanEnqs ops
    ∧ chanRun (pre ++ ChanOp.peek b :: post) c = chanRun (pre ++ post) c
    ∧ (groove_player_event_peek c b).2 = c
    ∧ (groove_player_event_poll c).1 = c.q.head?
    ∧ (groove_player_event_wait c).1 = c.q.head?
    ∧ ((groove_player_event_peek c b).1 = 1 ↔ (groove_player_event_poll c).1.isSome) := by
  obtain ⟨q⟩ := c
  refine ⟨chanRun_fifo ops ⟨q⟩, chanRun_peek_transparent post b pre ⟨q⟩, rfl, ?_, ?_, ?_⟩
  · cases q <;> rfl
  · cases q <;> rfl
  · cases q <;> simp [groove_player_event_peek, groove_player_event_poll]

/-! ### Removing the current item; empty-playlist behaviour; file frame -/

/-- C4: in every reachable player state whose current item is `i`, removing
`i` advances the play-head to the item that followed `i` in playlist order at
the moment of removal (`nd.next`), stops playback when no item followed, and
leaves no stale reference: the removed item is gone from the store and the
new current item, when present, is still a valid member. -/
theorem groove_remove_current_consistent (p : Player) (i : Nat) (nd : Node)
    (hreach : PlaylistReach p.pl)
    (hcur : p.cur = some i)
    (hnd : findNode p.pl.nodes i = some nd) :
    (groove_player_remove p i).cur = nd.next
    ∧ (nd.next = none → (groove_player_remove p i).playing = false)
    ∧ findNode (groove_player_remove p i).pl.nodes i = none
    ∧ (∀ j, nd.next = some j →
        ∃ m, findNode (groove_player_remove p i).pl.nodes j = some m) := by
  have hdef : groove_player_remove p i =
      { pl := p.pl.remove i
        cur := nd.next
        sec := 0
        playing := match nd.next with
          | none => false
          | some _ => p.playing
        events := p.events } := by
    simp [groove_player_remove, hnd, hcur]
  obtain ⟨xs, hrep⟩ := reach_represents p.pl hreach
  obtain ⟨a, b, hxs, hnext, hrep'⟩ := represents_remove p.pl xs i nd hrep hnd
  have hnodupxs : xs.Nodup := nodup_of_represents p.pl xs hrep
  have hinotab : i ∉ a ++ b := by
    rw [hxs] at hnodupxs
    have hdisj := List.nodup_append.mp hnodupxs
    have hia : i ∉ a := fun hi => hdisj.2.2 hi (List.mem_cons_self i b)
    have hib : i ∉ b := (List.nodup_cons.mp hdisj.2.1).1
    intro hm
    rcases List.mem_append.mp hm with hl | hr
    · exact hia hl
    · exact hib hr
  refine ⟨by rw [hdef], by intro h; rw [hdef]; simp [h], ?_, ?_⟩
  · rw [hdef]
    refine (findNode_eq_none_iff _ _).mpr ?_
    intro hk
    exact hinotab (hrep'.keysPerm.mem_iff.mp hk)
  · intro j hj
    rw [hj] at hnext
    have hjb : j ∈ b := mem_of_head?_eq b j hnext.symm
    have hjk : j ∈ keys (p.pl.remove i).nodes :=
      hrep'.keysPerm.mem_iff.mpr (List.mem_append_right a hjb)
    have := (findNode_isSome_iff _ _).mpr hjk
    rw [hdef]
    exact Option.isSome_iff_exists.mp this

/-- Witness for C4: a two-item playlist whose current (head) item is removed;
the play-head advances to the second item. -/
theorem groove_remove_current_consistent_witness :
    let p : Player := ⟨(Playlist.empty.insert 7 0 none).insert 8 0 none, some 0, 0, true, ⟨[]⟩⟩
    let nd : Node := ⟨none, 7, 0, some 1⟩
    (groove_player_remove p 0).cur = nd.next
    ∧ (nd.next = none → (groove_player_remove p 0).playing = false)
    ∧ findNode (groove_player_remove p 0).pl.nodes 0 = none
    ∧ (∀ j, nd.next = some j →
        ∃ m, findNode (groove_player_remove p 0).pl.nodes j = some m) :=
  groove_remove_current_consistent
    ⟨(Playlist.empty.insert 7 0 none).insert 8 0 none, some 0, 0, true, ⟨[]⟩⟩ 0
    ⟨none, 7, 0, some 1⟩
    (PlaylistReach.insert _ 8 0 none (PlaylistReach.insert _ 7 0 none PlaylistReach.empty))
    rfl rfl

/-- C8: in every reachable player state, `position()` reports a null item
exactly when the playlist is empty (`count = 0`), and on an empty playlist
`position()` returns `(null, 0)` while `play()` is a no-op that leaves the
whole player state — in particular its event queue, so no NowPlaying —
unchanged. -/
theorem groove_empty_playlist_position_play (p : Player) (hreach : PlaylistReach p.pl) :
    ((groove_player_position p).1 = none ↔ p.pl.count = 0)
    ∧ (p.pl.count = 0 →
        groove_player_position p = (none, 0)
        ∧ groove_player_play p = p
        ∧ (groove_player_play p).events = p.events) := by
  obtain ⟨xs, hrep⟩ := reach_represents p.pl hreach
  have hh : p.pl.playlist_head = none ↔ p.pl.count = 0 := by
    rw [hrep.headEq, hrep.countEq, List.head?_eq_none_iff, List.length_eq_zero]
  constructor
  · cases hph : p.pl.playlist_head with
    | none =>
      simp only [groove_player_position, hph]
      simpa using hh.mp hph
    | some h0 =>
      have : ¬ p.pl.count = 0 := fun hc => by
        have := hh.mpr hc
        rw [hph] at this
        cases this
      simp only [groove_player_position, hph]
      cases p.cur <;> simpa using this
  · intro hc
    have hph : p.pl.playlist_head = none := hh.mpr hc
    refine ⟨by simp [groove_player_position, hph], by simp [groove_player_play, hph], by
      simp [groove_player_play, hph]⟩

/-- Witness for C8 at a freshly created (empty) player. -/
theorem groove_empty_playlist_position_play_witness :
    let p : Player := ⟨Playlist.empty, none, 0, false, ⟨[]⟩⟩
    groove_player_position p = (none, 0)
    ∧ groove_player_play p = p
    ∧ (groove_player_play p).events = p.events :=
  (groove_empty_playlist_position_play ⟨Playlist.empty, none, 0, false, ⟨[]⟩⟩
    PlaylistReach.empty).2 rfl

/-- C9: `groove_player_remove`, `groove_player_clear` and
`groove_destroy_player` leave the table of open files — and so every
`GrooveFile` and its state — unchanged: none of them ever closes a file. -/
theorem groove_player_ops_do_not_close_files (s : GrooveSystem) (i : Nat) :
    (sysRemove s i).files = s.files
    ∧ (sysClear s).files = s.files
    ∧ (sysDestroy s).files = s.files :=
  ⟨rfl, rfl, rfl⟩

/-! ### Gain conversion -/

/-- C5: the linear gain is `exp(ln 10 · 0.05 · dB)` (as documented in the
header), so 0 dB maps to gain 1, and the conversion round-trips exactly over
the reals: converting a gain back to decibels recovers the original value. -/
theorem groove_gain_conversion :
    (∀ x : ℝ, gain_to_db (db_to_gain x) = x) ∧ db_to_gain 0 = 1 := by
  have hlogpos : (0 : ℝ) < Real.log 10 := Real.log_pos (by norm_num)
  have h5 : Real.log 10 * 0.05 ≠ 0 := mul_ne_zero (ne_of_gt hlogpos) (by norm_num)
  constructor
  · intro x
    unfold gain_to_db db_to_gain
    rw [Real.log_exp]
    exact mul_div_cancel_left₀ x h5
  · unfold db_to_gain
    rw [mul_zero, Real.exp_zero]

/-! ### Scan lemmas -/

theorem scanGo_abort (cb : ScanCallbacks) (es : List ScanEntry) (o : ScanOutcome)
    (h : o.abort = true) : scanGo cb es o = o := by
  cases es with
  | nil => rfl
  | cons e r => simp [scanGo, h]

theorem scanGo_append (cb : ScanCallbacks) (l1 l2 : List ScanEntry) :
    ∀ o, scanGo cb (l1 ++ l2) o = scanGo cb l2 (scanGo cb l1 o) := by
  induction l1 with
  | nil => intro o; rfl
  | cons e r ih =>
    intro o
    by_cases h : o.abort = true
    · rw [scanGo_abort cb _ o h, scanGo_abort cb (e :: r) o h, scanGo_abort cb l2 o h]
    · have hb : o.abort = false := by
        cases ho : o.abort
        · rfl
        · exact absurd ho h
      show scanGo cb (e :: (r ++ l2)) o = scanGo cb l2 (scanGo cb (e :: r) o)
      simp only [scanGo, hb, Bool.false_eq_true, if_false]
      exact ih _

theorem scanGo_spec (cb : ScanCallbacks) (es : List ScanEntry) :
    ∀ o : ScanOutcome, ∃ es1 es2, es = es1 ++ es2
      ∧ (scanGo cb es o).analyzed = o.analyzed ++ es1
      ∧ (scanGo cb es o).completions =
          o.completions ++ es1.map (fun e => (e.userdata, entryGain e, peakOf e))
      ∧ (scanGo cb es o).state = es1.foldl (fun st e => accumSamples st e.samples) o.state
      ∧ (scanGo cb es o).peak = es1.foldl (fun pk e => max pk (peakOf e)) o.peak := by
  induction es with
  | nil =>
    intro o
    exact ⟨[], [], rfl, by simp [scanGo], by simp [scanGo], by simp [scanGo], by
      simp [scanGo]⟩
  | cons e r ih =>
    intro o
    by_cases h : o.abort = true
    · refine ⟨[], e :: r, rfl, ?_, ?_, ?_, ?_⟩ <;> rw [scanGo_abort cb _ o h] <;> simp
    · have hb : o.abort = false := by
        cases ho : o.abort
        · rfl
        · exact absurd ho h
      obtain ⟨es1, es2, heq, ha, hc, hs, hp⟩ := ih
        { analyzed := o.analyzed ++ [e]
          completions := o.completions ++ [(e.userdata, entryGain e, peakOf e)]
          state := accumSamples o.state e.samples
          peak := max o.peak (peakOf e)
          abort := (o.abort || cb.file_progress e.userdata 1) ||
            cb.file_complete e.userdata (entryGain e) (peakOf e) }
      rw [hb] at ha hc hs hp
      refine ⟨e :: es1, es2, by rw [heq]; exact rfl, ?_, ?_, ?_, ?_⟩
      · simp only [scanGo, hb, Bool.false_eq_true, if_false]
        rw [ha]
        simp
      · simp only [scanGo, hb, Bool.false_eq_true, if_false]
        rw [hc]
        simp
      · simp only [scanGo, hb, Bool.false_eq_true, if_false]
        rw [hs]
        rfl
      · simp only [scanGo, hb, Bool.false_eq_true, if_false]
        rw [hp]
        rfl

/-- C6: for every scan, the completion callbacks report each analyzed entry's
own gain and peak; the aggregate peak is the maximum (running from 0) of the
per-file peaks; the shared loudness state is exactly the incremental
accumulation of every analyzed entry's samples, and `exec` reduces it once at
the end for the album gain. On the spec's two-file scenario (constant peaks
1/2 and 1) the aggregate peak is 1, the callbacks report their own peaks
exactly, and the album gain differs from the arithmetic mean of the per-file
gains. -/
theorem groove_replaygainscan_aggregation (cb : ScanCallbacks) (entries : List ScanEntry) :
    (scanGo cb entries initOutcome).completions =
      (scanGo cb entries initOutcome).analyzed.map
        (fun e => (e.userdata, entryGain e, peakOf e))
    ∧ (scanGo cb entries initOutcome).peak =
        ((scanGo cb entries initOutcome).analyzed.map peakOf).foldl max 0
    ∧ (scanGo cb entries initOutcome).state =
        (scanGo cb entries initOutcome).analyzed.foldl
          (fun st e => accumSamples st e.samples) initLoudness
    ∧ (groove_replaygainscan_exec cb entries).1 =
        reduceGain (scanGo cb entries initOutcome).state
    ∧ (groove_replaygainscan_exec cbQuiet [entryHalf, entryFull]).2.1 = 1
    ∧ (groove_replaygainscan_exec cbQuiet [entryHalf, entryFull]).2.2 =
        [(0, entryGain entryHalf, 1 / 2), (1, entryGain entryFull, 1)]
    ∧ (groove_replaygainscan_exec cbQuiet [entryHalf, entryFull]).1 ≠
        (entryGain entryHalf + entryGain entryFull) / 2 := by
  obtain ⟨es1, es2, heq, ha, hc, hs, hp⟩ := scanGo_spec cb entries initOutcome
  have ha' : (scanGo cb entries initOutcome).analyzed = es1 := by
    simpa [initOutcome] using ha
  refine ⟨?_, ?_, ?_, rfl, ?_, ?_, ?_⟩
  · rw [ha', hc]
    simp [initOutcome]
  · rw [ha', hp]
    simp [initOutcome, List.foldl_map]
  · rw [ha', hs]
    simp [initOutcome]
  · norm_num [groove_replaygainscan_exec, scanGo, cbQuiet, cbAbortFirst, initOutcome,
      entryHalf, entryFull, peakOf, entryGain, accumSamples, initLoudness, reduceGain,
      referenceLevel, List.foldl, max_def, abs]
  · norm_num [groove_replaygainscan_exec, scanGo, cbQuiet, cbAbortFirst, initOutcome,
      entryHalf, entryFull, peakOf, entryGain, accumSamples, initLoudness, reduceGain,
      referenceLevel, List.foldl, max_def, abs]
  · norm_num [groove_replaygainscan_exec, scanGo, cbQuiet, cbAbortFirst, initOutcome,
      entryHalf, entryFull, peakOf, entryGain, accumSamples, initLoudness, reduceGain,
      referenceLevel, List.foldl, max_def, abs]

/-- C7: the analyzed entries are always a queue-order prefix of the entries
added; once the abort flag is observed set after some prefix, running the
scan over any extension analyzes nothing further (no entry ever moves from
Queued to Analyzing again) and returns the very same outcome; `exec` returns
the aggregate reduced from exactly the completed entries; and in the spec's
scenario — abort requested inside the first progress callback — only the
first entry is analyzed. -/
theorem groove_scan_abort_stops (cb : ScanCallbacks) (l1 l2 : List ScanEntry) :
    (∃ rest, (scanGo cb (l1 ++ l2) initOutcome).analyzed ++ rest = l1 ++ l2)
    ∧ ((scanGo cb l1 initOutcome).abort = true →
        scanGo cb (l1 ++ l2) initOutcome = scanGo cb l1 initOutcome)
    ∧ (groove_replaygainscan_exec cb (l1 ++ l2)).1 =
        reduceGain ((scanGo cb (l1 ++ l2) initOutcome).analyzed.foldl
          (fun st e => accumSamples st e.samples) initLoudness)
    ∧ (scanGo cbAbortFirst [entryHalf, entryFull] initOutcome).analyzed = [entryHalf] := by
  obtain ⟨es1, es2, heq, ha, hc, hs, hp⟩ := scanGo_spec cb (l1 ++ l2) initOutcome
  have ha' : (scanGo cb (l1 ++ l2) initOutcome).analyzed = es1 := by
    simpa [initOutcome] using ha
  refine ⟨⟨es2, by rw [ha']; exact heq.symm⟩, ?_, ?_, ?_⟩
  · intro habort
    rw [scanGo_append cb l1 l2 initOutcome, scanGo_abort cb l2 _ habort]
  · show reduceGain (scanGo cb (l1 ++ l2) initOutcome).state = _
    rw [hs, ha']
    simp [initOutcome]
  · norm_num [groove_replaygainscan_exec, scanGo, cbQuiet, cbAbortFirst, initOutcome,
      entryHalf, entryFull, peakOf, entryGain, accumSamples, initLoudness, reduceGain,
      referenceLevel, List.foldl, max_def, abs]

/-- Witness for C7: with callbacks whose progress callback immediately sets
`abort_request`, extending a one-entry scan by a second entry changes
nothing. -/
theorem groove_scan_abort_stops_witness :
    scanGo cbAbortFirst ([entryHalf] ++ [entryFull]) initOutcome
      = scanGo cbAbortFirst [entryHalf] initOutcome :=
  (groove_scan_abort_stops cbAbortFirst [entryHalf] [entryFull]).2.1
    (by simp [scanGo, cbAbortFirst, initOutcome])

/-- C10: `groove_file_metadata_set` with a null value deletes every matching
entry for the key (under the case-matching flag) and marks the file dirty; a
non-null set with overwriting allowed also marks it dirty; every call
succeeds with a return value ≥ 0 in this model; no metadata call ever
touches the on-disk tag set — only `groove_file_save` copies the in-memory
tags to disk, clearing the dirty flag and returning 0. -/
theorem groove_file_metadata_model (f : GFile) (key : String) (value : Option String)
    (flags : TagFlags) (v : String) :
    ((groove_file_metadata_set f key none flags).1.tags.all
        (fun kv => !tagKeyMatches flags.matchCase kv.1 key)) = true
    ∧ (groove_file_metadata_set f key value flags).2 ≥ 0
    ∧ (groove_file_metadata_set f key value flags).1.disk = f.disk
    ∧ (groove_file_metadata_set f key none flags).1.dirty = true
    ∧ (groove_file_metadata_set f key (some v)
        ⟨flags.matchCase, false, flags.append⟩).1.dirty = true
    ∧ (groove_file_save f).1.disk = f.tags
    ∧ (groove_file_save f).1.dirty = false
    ∧ (groove_file_save f).2 = 0 := by
  refine ⟨?_, ?_, ?_, by simp [groove_file_metadata_set], ?_, rfl, rfl, rfl⟩
  · simp only [groove_file_metadata_set]
    rw [List.all_eq_true]
    intro kv hkv
    exact (List.mem_filter.mp hkv).2
  · cases value with
    | none => simp [groove_file_metadata_set]
    | some w =>
      simp only [groove_file_metadata_set]
      split_ifs
      · simp
      · cases f.tags.find? (fun kv => tagKeyMatches flags.matchCase kv.1 key) <;> simp
      · simp
  · cases value with
    | none => simp [groove_file_metadata_set]
    | some w =>
      simp only [groove_file_metadata_set]
      split_ifs
      · simp
      · cases f.tags.find? (fun kv => tagKeyMatches flags.matchCase kv.1 key) <;> simp
      · simp
  · simp only [groove_file_metadata_set]
    simp only [Bool.false_and, Bool.false_eq_true, if_false]
    split_ifs
    · cases f.tags.find? (fun kv =>
        tagKeyMatches (⟨flags.matchCase, false, flags.append⟩ : TagFlags).matchCase kv.1 key) <;>
        simp
    · simp
